import Mathlib

/-!
Verification of the interactive file-selector core of `filecat`
(`src/colors.ts` / the interactive module).

Modelling conventions (shallow embedding):
* JavaScript strings are modelled as `List Char` (`Str`); `localeCompare`
  ordering is modelled as lexicographic comparison of code points
  (`strLe`), and `toLowerCase` as per-character ASCII lowering.
* A `TreeItem` becomes a `Tree` node carrying its scalar fields
  (`NodeData`) plus a list of children.  In the source, `children` is an
  array exactly when `isDirectory` is true and `undefined` for files; we
  encode `undefined` as the empty list, with `isDirectory` recording
  which case we are in (faithful for every tree the builder produces).
* The mutable parent back-references become path addressing: a node of a
  forest is addressed by the list of child indices from the roots, and
  `toggleSelection`'s upward `updateParentSelection` walk becomes the
  recomputation of `selected` at each ancestor on the way back up, which
  is the net effect of the imperative code (ancestors are recomputed
  bottom-up from the final child states after the subtree update).
-/

set_option maxHeartbeats 1600000

namespace Filecat

/-- JavaScript strings as lists of characters. -/
abbrev Str := List Char

/-- Lexicographic code-point comparison; models the ordering used by
`a.localeCompare(b) < 0 / = 0` (`le` form) in the source's sort calls. -/
def strLe : Str → Str → Bool
  | [], _ => true
  | _ :: _, [] => false
  | a :: as, b :: bs =>
    if a.toNat < b.toNat then true
    else if b.toNat < a.toNat then false
    else strLe as bs

/-- Per-character ASCII lowering; models `String.prototype.toLowerCase`. -/
def lowerStr (s : Str) : Str := s.map Char.toLower

/-- The scalar fields of a `TreeItem` in `src/colors.ts`. -/
structure NodeData where
  path : Str
  relativePath : Str
  name : Str
  isDirectory : Bool
  depth : Nat
  selected : Bool
  expanded : Bool
  deriving DecidableEq, Repr

/-- A `TreeItem` with its children; files carry the empty list. -/
inductive Tree where
  | node (data : NodeData) (children : List Tree)

def Tree.data : Tree → NodeData
  | .node d _ => d

def Tree.children : Tree → List Tree
  | .node _ cs => cs

/-- `item.selected`. -/
def Tree.sel (t : Tree) : Bool := t.data.selected

/-- `item.isDirectory`. -/
def Tree.isDir (t : Tree) : Bool := t.data.isDirectory

/-- Replace the element at index `i` (no-op when out of range); models an
in-place mutation of one element of a JS array. -/
def modIdx : List α → Nat → (α → α) → List α
  | [], _, _ => []
  | a :: as, 0, f => f a :: as
  | a :: as, i + 1, f => a :: modIdx as i f

mutual

/-- The downward half of `toggleSelection`: set `selected := v` on a node
and, recursively, on all of its descendants. -/
def setSelT (v : Bool) : Tree → Tree
  | .node d cs => .node { d with selected := v } (setSelF v cs)

def setSelF (v : Bool) : List Tree → List Tree
  | [] => []
  | t :: ts => setSelT v t :: setSelF v ts

end

/-- `parent.children?.every((child) => child.selected) ?? false` for a node
whose children list is `cs` (the `?? false` branch is unreachable for real
parents, which always carry a children array). -/
def allChildrenSel (cs : List Tree) : Bool := cs.all Tree.sel

mutual

/-- `toggleSelection` at the node addressed by `p` inside `t`, with
`v? = some v` for an explicit value and `none` for a plain toggle.
At `p = []` the node's whole subtree is set to the new value; on the way
back up each ancestor's `selected` is recomputed from its (updated)
children — the net effect of `updateParentSelection`. -/
def toggleT (t : Tree) (p : List Nat) (v? : Option Bool) : Tree :=
  match p with
  | [] => setSelT (v?.getD (!t.sel)) t
  | i :: rest =>
    match t with
    | .node d cs =>
      let cs' := toggleF cs (i :: rest) v?
      .node { d with selected := allChildrenSel cs' } cs'

/-- `toggleSelection` on the node of the forest addressed by `p`; the
forest level does no recomputation because root items have no parent. -/
def toggleF (ts : List Tree) (p : List Nat) (v? : Option Bool) : List Tree :=
  match p with
  | [] => ts
  | i :: rest => modIdx ts i (fun t => toggleT t rest v?)

end

/-- `toggleAll(items, selected)`: `toggleSelection(item, selected)` for each
item of the forest in order. -/
def toggleAllF (ts : List Tree) (v : Bool) : List Tree :=
  (List.range ts.length).foldl (fun acc i => toggleF acc [i] (some v)) ts

/-- `allSelected(items)`: false as soon as some node or descendant is not
selected. -/
def allSelectedF : List Tree → Bool
  | [] => true
  | .node d cs :: ts => d.selected && allSelectedF cs && allSelectedF ts

mutual

/-- `flattenTree`'s `traverse`: push the item, then recurse into children
only when the item is an expanded directory. -/
def flattenT : Tree → List Tree
  | .node d cs =>
    .node d cs :: (if d.isDirectory && d.expanded then flattenF cs else [])

def flattenF : List Tree → List Tree
  | [] => []
  | t :: ts => flattenT t ++ flattenF ts

end

/-- `flatItems[i].isDirectory`, with out-of-range reads `false` (the loops
below only probe in-range indices). -/
def isDirAt (l : List Tree) (i : Nat) : Bool :=
  ((l.get? i).map Tree.isDir).getD false

/-- `for (let i = lo; i < stop; i++) if (flatItems[i].isDirectory) return i`. -/
def scanUp (l : List Tree) (i stop : Nat) : Option Nat :=
  if i < stop then
    if isDirAt l i then some i else scanUp l (i + 1) stop
  else none
termination_by stop - i

/-- `for (let i = hi; i >= 0; i--) ...`: scan `hi, hi-1, ..., 0`. -/
def scanDownFrom (l : List Tree) : Nat → Option Nat
  | 0 => if isDirAt l 0 then some 0 else none
  | i + 1 => if isDirAt l (i + 1) then some (i + 1) else scanDownFrom l i

/-- `for (let i = hi; i > stop; i--) ...`: scan `hi, hi-1, ..., stop+1`. -/
def scanDownTo (l : List Tree) (i stop : Nat) : Option Nat :=
  if stop < i then
    if isDirAt l i then some i else scanDownTo l (i - 1) stop
  else none
termination_by i

/-- `findNextFolder`: first directory strictly after the cursor, else first
directory strictly before it (wrap), else the cursor itself. -/
def findNextFolder (flat : List Tree) (c : Nat) : Nat :=
  match scanUp flat (c + 1) flat.length with
  | some i => i
  | none =>
    match scanUp flat 0 c with
    | some i => i
    | none => c

/-- `findPrevFolder`: first directory strictly before the cursor (scanning
downward), else last directory strictly after it (wrap), else the cursor. -/
def findPrevFolder (flat : List Tree) (c : Nat) : Nat :=
  match (if c = 0 then none else scanDownFrom flat (c - 1)) with
  | some i => i
  | none =>
    match (if flat.length = 0 then none else scanDownTo flat (flat.length - 1) c) with
    | some i => i
    | none => c

/-- The file descriptor assembled by `getSelectedFiles`. -/
structure BundleFile where
  absolutePath : Str
  relativePath : Str
  extension : Str
  deriving DecidableEq, Repr

/-- `str.split(sep)` for a one-character separator, JS semantics
(`"".split(".") = [""]`, separators at the ends produce empty groups). -/
def splitOnChar (sep : Char) : Str → List Str
  | [] => [[]]
  | c :: cs =>
    if c = sep then [] :: splitOnChar sep cs
    else
      match splitOnChar sep cs with
      | [] => [[c]]
      | g :: gs => (c :: g) :: gs

/-- `item.name.includes(".") ? item.name.split(".").pop() || "" : ""`. -/
def extOf (name : Str) : Str :=
  if name.contains '.' then (splitOnChar '.' name).getLastD [] else []

/-- The `files.push({...})` record for a selected leaf. -/
def mkBundle (d : NodeData) : BundleFile :=
  { absolutePath := d.path, relativePath := d.relativePath,
    extension := extOf d.name }

/-- Comparator `(a, b) => a.relativePath.localeCompare(b.relativePath)`. -/
def bundleLe (a b : BundleFile) : Bool := strLe a.relativePath b.relativePath

mutual

/-- `getSelectedFiles`'s `traverse`: collect every selected non-directory
node in pre-order (children are always recursed into when present). -/
def collectT : Tree → List BundleFile
  | .node d cs =>
    (if d.selected && !d.isDirectory then [mkBundle d] else []) ++ collectF cs

def collectF : List Tree → List BundleFile
  | [] => []
  | t :: ts => collectT t ++ collectF ts

end

/-- `getSelectedFiles(items, cwd)`: collect, then
`files.sort((a, b) => a.relativePath.localeCompare(b.relativePath))`.
The `cwd` parameter is unused by the source body and omitted here. -/
def getSelectedFiles (items : List Tree) : List BundleFile :=
  (collectF items).mergeSort bundleLe

/-- The footer count computed by `render`:
`getSelectedFiles(flatItems.map((i) => i), ".").length`. -/
def footerCount (flatItems : List Tree) : Nat :=
  (getSelectedFiles (flatItems.map id)).length

/-- `needle` is a prefix of `hay`. -/
def strStartsWith : Str → Str → Bool
  | _, [] => true
  | [], _ :: _ => false
  | h :: hs, n :: ns => (h == n) && strStartsWith hs ns

/-- `hay.includes(needle)` (substring containment), as the usual scan. -/
def strIncludes : Str → Str → Bool
  | hay, needle =>
    strStartsWith hay needle ||
      (match hay with
        | [] => false
        | _ :: hs => strIncludes hs needle)

/-- `matchesQuery` of `filterTree` (`lowerQuery` is the query already
lowered): the lowered name or lowered relative path contains it. -/
def matchesQuery (lowerQuery : Str) (t : Tree) : Bool :=
  strIncludes (lowerStr t.data.name) lowerQuery ||
    strIncludes (lowerStr t.data.relativePath) lowerQuery

mutual

/-- `filterItems` of `filterTree`: keep a directory when it has a retained
child or matches itself (forcing `expanded := true` on the copy), keep a
leaf exactly when it matches. -/
def filterItemsT (lowerQuery : Str) (t : Tree) : List Tree :=
  match t with
  | .node d cs =>
    if d.isDirectory then
      let fc := filterItemsF lowerQuery cs
      if fc.length > 0 || matchesQuery lowerQuery (.node d cs) then
        [Tree.node { d with expanded := true } fc]
      else []
    else
      if matchesQuery lowerQuery (.node d cs) then [Tree.node d cs] else []

def filterItemsF (lowerQuery : Str) : List Tree → List Tree
  | [] => []
  | t :: ts => filterItemsT lowerQuery t ++ filterItemsF lowerQuery ts

end

/-- `filterTree(items, query)`. -/
def filterTree (items : List Tree) (query : Str) : List Tree :=
  if query = [] then items
  else filterItemsF (lowerStr query) items

/-- Up arrow: `cursorIndex = Math.max(0, cursorIndex - 1)` (over JS
numbers, hence `Int`). -/
def cursorUp (c : Int) : Int := max 0 (c - 1)

/-- Down arrow: `cursorIndex = Math.min(flatItems.length - 1, cursorIndex + 1)`. -/
def cursorDown (len : Nat) (c : Int) : Int := min ((len : Int) - 1) (c + 1)

/-! ### The tree builder

Filesystem paths are modelled as lists of segments (`List Str`); the
`@std/path` helpers then become: `basename` = last segment,
`resolve(p, "..")` = drop the last segment, `relative(cwd, p)` = drop the
`cwd` prefix (the entries the walker yields all live under the scan
root).  The walk itself is an external collaborator; `buildTree` is
modelled from its pure part: sort the collected entries by absolute
path, then assemble the tree through the directory map.  Directory nodes
that found no parent and are not at depth 0 stay reachable through the
map (children can still attach to them) without being part of the
returned root list; the model keeps them in a separate `orphans` forest. -/

/-- One entry collected by the walk. -/
structure Entry where
  path : List Str
  isDirectory : Bool

/-- Join segments with `/`: the absolute path string of a segment list. -/
def pathStr (p : List Str) : Str := List.intercalate ['/'] p

/-- Comparator `(a, b) => a.path.localeCompare(b.path)` used for
`entries.sort`. -/
def entryLe (a b : Entry) : Bool := strLe (pathStr a.path) (pathStr b.path)

/-- `relative(cwd, p)` for paths below `cwd` (the only case the selector
exercises); other paths are left unchanged. -/
def relSegs (cwd p : List Str) : List Str :=
  if cwd.isPrefixOf p then p.drop cwd.length else p

mutual

/-- `dirMap.get(key)` followed by `parent.children.push(child)`: find a
directory node with the given absolute path and append the child to its
children. `none` when no directory in the tree has that path. -/
def attachT (key : Str) (child : Tree) : Tree → Option Tree
  | .node d cs =>
    if d.isDirectory && d.path = key then some (.node d (cs ++ [child]))
    else
      match attachF key child cs with
      | some cs' => some (.node d cs')
      | none => none

def attachF (key : Str) (child : Tree) : List Tree → Option (List Tree)
  | [] => none
  | t :: ts =>
    match attachT key child t with
    | some t' => some (t' :: ts)
    | none =>
      match attachF key child ts with
      | some ts' => some (t :: ts')
      | none => none

end

/-- The assembly state: the depth-0 roots to be returned, plus directory
nodes that are only reachable through the directory map. -/
structure BTState where
  items : List Tree
  orphans : List Tree

/-- The body of `buildTree`'s assembly loop for one sorted entry. -/
def btStep (cwd : List Str) (st : BTState) (e : Entry) : BTState :=
  let rel := relSegs cwd e.path
  if rel = [] then st
  else
    let depth := rel.length - 1
    let item : Tree := .node
      { path := pathStr e.path, relativePath := pathStr rel,
        name := e.path.getLastD [], isDirectory := e.isDirectory,
        depth := depth, selected := false, expanded := false } []
    let parentKey := pathStr e.path.dropLast
    match attachF parentKey item st.items with
    | some items' => { st with items := items' }
    | none =>
      match attachF parentKey item st.orphans with
      | some orphans' => { st with orphans := orphans' }
      | none =>
        if depth = 0 then { st with items := st.items ++ [item] }
        else if e.isDirectory then { st with orphans := st.orphans ++ [item] }
        else st

/-- `buildTree`: sort the collected entries by absolute path, assemble,
return the depth-0 roots. -/
def buildTree (entries : List Entry) (cwd : List Str) : List Tree :=
  ((entries.mergeSort entryLe).foldl (btStep cwd) ⟨[], []⟩).items

/-! ### Derived notions the claims quantify over -/

/-- Sibling order by absolute path, the order the spec fixes at build
time. -/
def pathLe (a b : Tree) : Bool := strLe a.data.path b.data.path

mutual

/-- Every sibling list inside the tree is sorted by absolute path. -/
def sortedT : Tree → Prop
  | .node _ cs => cs.Pairwise (fun a b => pathLe a b = true) ∧ sortedF cs

def sortedF : List Tree → Prop
  | [] => True
  | t :: ts => sortedT t ∧ sortedF ts

end

mutual

/-- The selection-consistency invariant: every directory with at least
one child has `selected` = AND of its direct children's `selected`,
recursively at every depth. -/
def invT : Tree → Bool
  | .node d cs =>
    (!d.isDirectory || cs.isEmpty || (d.selected == allChildrenSel cs)) && invF cs

def invF : List Tree → Bool
  | [] => true
  | t :: ts => invT t && invF ts

end

mutual

/-- All nodes of a tree, in pre-order. -/
def nodesT : Tree → List Tree
  | .node d cs => .node d cs :: nodesF cs

def nodesF : List Tree → List Tree
  | [] => []
  | t :: ts => nodesT t ++ nodesF ts

end

mutual

/-- The non-directory nodes of a tree, in pre-order. -/
def leavesT : Tree → List NodeData
  | .node d cs => (if !d.isDirectory then [d] else []) ++ leavesF cs

def leavesF : List Tree → List NodeData
  | [] => []
  | t :: ts => leavesT t ++ leavesF ts

end

mutual

/-- Forget the `selected` flags: everything `toggleSelection`/`toggleAll`
must leave untouched. -/
def eraseSelT : Tree → Tree
  | .node d cs => .node { d with selected := false } (eraseSelF cs)

def eraseSelF : List Tree → List Tree
  | [] => []
  | t :: ts => eraseSelT t :: eraseSelF ts

end

/-- The substring after the last `.`, as the spec words it; empty when
there is no `.` at all. -/
def specExt (name : Str) : Str :=
  if name.contains '.' then ((name.reverse.takeWhile (· ≠ '.')).reverse) else []

/-- The spec's wording of the filter: a node matches when its lowered
name or relative path contains the lowered query. -/
def specMatches (q : Str) (t : Tree) : Bool := matchesQuery (lowerStr q) t

mutual

/-- The spec's wording of retention: a leaf is retained iff it matches; a
directory is retained iff it matches directly or has at least one
retained descendant (equivalently: a retained direct child). -/
def specRetainT (q : Str) : Tree → Bool
  | .node d cs =>
    if d.isDirectory then
      specMatches q (.node d cs) || specRetainF q cs
    else specMatches q (.node d cs)

def specRetainF (q : Str) : List Tree → Bool
  | [] => false
  | t :: ts => specRetainT q t || specRetainF q ts

end

mutual

/-- The filter as the spec describes it: keep exactly the retained
nodes, recursively filter a retained directory's children and force its
copy `expanded := true`. -/
def specFilterT (q : Str) : Tree → List Tree
  | .node d cs =>
    if d.isDirectory then
      if specRetainT q (.node d cs) then
        [Tree.node { d with expanded := true } (specFilterF q cs)]
      else []
    else if specMatches q (.node d cs) then [Tree.node d cs] else []

def specFilterF (q : Str) : List Tree → List Tree
  | [] => []
  | t :: ts => specFilterT q t ++ specFilterF q ts

end

/-! ### Concrete example trees (Scenario A of the spec, and variants) -/

/-- Leaf helper for examples. -/
def mkLeaf (path rel name : Str) (selat : Bool := false) : Tree :=
  .node { path := path, relativePath := rel, name := name,
          isDirectory := false, depth := 0, selected := selat,
          expanded := false } []

/-- Directory helper for examples. -/
def mkDir (path rel name : Str) (cs : List Tree) (selat : Bool := false)
    (expat : Bool := false) : Tree :=
  .node { path := path, relativePath := rel, name := name,
          isDirectory := true, depth := 0, selected := selat,
          expanded := expat } cs

/-- Scenario A: files `a.ts`, `src/main.ts`, `src/lib/x.ts`. -/
def exTree : List Tree :=
  [ mkLeaf "/r/a.ts".toList "a.ts".toList "a.ts".toList,
    mkDir "/r/src".toList "src".toList "src".toList
      [ mkDir "/r/src/lib".toList "src/lib".toList "lib".toList
          [ mkLeaf "/r/src/lib/x.ts".toList "src/lib/x.ts".toList "x.ts".toList ],
        mkLeaf "/r/src/main.ts".toList "src/main.ts".toList "main.ts".toList ] ]

/-- A directory with one selected child file, the directory expanded:
the smallest state on which the footer count goes wrong. -/
def exFooterTree : List Tree :=
  [ mkDir "/r/d".toList "d".toList "d".toList
      [ mkLeaf "/r/d/f.ts".toList "d/f.ts".toList "f.ts".toList true ]
      true true ]

/-- Every node of the tree has its absolute path `strLe`-below `s`;
during assembly this holds of all already-inserted nodes with `s` any
still-unprocessed entry's path. -/
def boundT (s : Str) (t : Tree) : Prop :=
  ∀ u ∈ nodesT t, strLe u.data.path s = true

/-- `boundT` over a forest. -/
def boundF (s : Str) (ts : List Tree) : Prop :=
  ∀ u ∈ nodesF ts, strLe u.data.path s = true

/-- The assembly invariant: the root list is internally sorted, the
roots are mutually ordered, and every inserted node's path is below
every remaining entry's path. -/
def BTInv (st : BTState) (rem : List Entry) : Prop :=
  sortedF st.items ∧
  st.items.Pairwise (fun a b => pathLe a b = true) ∧
  ∀ e ∈ rem, boundF (pathStr e.path) st.items

/-! ## Lemmas and theorems -/

theorem strLe_total : ∀ (a b : Str), (strLe a b || strLe b a) = true
  | [], b => by cases b <;> simp [strLe]
  | _ :: _, [] => by simp [strLe]
  | a :: as, b :: bs => by
    simp only [strLe]
    rcases Nat.lt_trichotomy a.toNat b.toNat with h | h | h
    · simp [h]
    · simp [h, Nat.lt_irrefl, strLe_total as bs]
    · simp [h, Nat.lt_asymm h]

theorem strLe_trans :
    ∀ (a b c : Str), strLe a b = true → strLe b c = true → strLe a c = true
  | [], _, _, _, _ => by simp [strLe]
  | _ :: _, [], _, hab, _ => by simp [strLe] at hab
  | _ :: _, _ :: _, [], _, hbc => by simp [strLe] at hbc
  | a :: as, b :: bs, c :: cs, hab, hbc => by
    simp only [strLe] at *
    rcases Nat.lt_trichotomy a.toNat b.toNat with h1 | h1 | h1
    · rcases Nat.lt_trichotomy b.toNat c.toNat with h2 | h2 | h2
      · simp [Nat.lt_trans h1 h2]
      · simp [h2 ▸ h1]
      · rw [if_neg (Nat.lt_asymm h2), if_pos h2] at hbc
        exact absurd hbc (by simp)
    · rcases Nat.lt_trichotomy b.toNat c.toNat with h2 | h2 | h2
      · simp [h1 ▸ h2]
      · rw [if_neg (h1 ▸ Nat.lt_irrefl _), if_neg (h1 ▸ Nat.lt_irrefl _)] at hab
        rw [if_neg (h2 ▸ Nat.lt_irrefl _), if_neg (h2 ▸ Nat.lt_irrefl _)] at hbc
        have hac : a.toNat = c.toNat := h1.trans h2
        rw [if_neg (hac ▸ Nat.lt_irrefl _), if_neg (hac ▸ Nat.lt_irrefl _)]
        exact strLe_trans as bs cs hab hbc
      · rw [if_neg (Nat.lt_asymm h2), if_pos h2] at hbc
        exact absurd hbc (by simp)
    · rw [if_neg (Nat.lt_asymm h1), if_pos h1] at hab
      exact absurd hab (by simp)

theorem modIdx_oob : ∀ (l : List α) (i : Nat) (f : α → α),
    l.length ≤ i → modIdx l i f = l
  | [], _, _, _ => rfl
  | _ :: _, 0, _, h => by simp at h
  | a :: as, i + 1, f, h => by
    simp only [modIdx]
    rw [modIdx_oob as i f (by simpa using h)]

theorem modIdx_modIdx : ∀ (l : List α) (i : Nat) (f : α → α),
    (∀ a, f (f a) = f a) → modIdx (modIdx l i f) i f = modIdx l i f
  | [], _, _, _ => rfl
  | a :: as, 0, f, hf => by simp [modIdx, hf]
  | a :: as, i + 1, f, hf => by
    simp only [modIdx]
    rw [modIdx_modIdx as i f hf]

theorem modIdx_append : ∀ (xs ys : List α) (f : α → α),
    modIdx (xs ++ ys) xs.length f = xs ++ modIdx ys 0 f
  | [], ys, f => rfl
  | x :: xs, ys, f => by
    show x :: modIdx (xs ++ ys) xs.length f = x :: (xs ++ modIdx ys 0 f)
    rw [modIdx_append xs ys f]

mutual

theorem setSelT_idem (v : Bool) : ∀ t, setSelT v (setSelT v t) = setSelT v t
  | .node d cs => by
    simp only [setSelT]
    rw [setSelF_idem v cs]

theorem setSelF_idem (v : Bool) : ∀ ts, setSelF v (setSelF v ts) = setSelF v ts
  | [] => rfl
  | t :: ts => by
    simp only [setSelF]
    rw [setSelT_idem v t, setSelF_idem v ts]

end

/-- `toggleSelection` with an explicit value only needs the value, not the
current state: `toggleT _ [] (some v)` is `setSelT v`. -/
theorem toggleT_nil_some (v : Bool) (t : Tree) :
    toggleT t [] (some v) = setSelT v t := by
  simp [toggleT]

theorem toggleF_nil (ts : List Tree) (v? : Option Bool) :
    toggleF ts [] v? = ts := by
  simp [toggleF]

theorem toggleF_cons (ts : List Tree) (i : Nat) (rest : List Nat)
    (v? : Option Bool) :
    toggleF ts (i :: rest) v? = modIdx ts i (fun t => toggleT t rest v?) := by
  simp [toggleF]

mutual

theorem toggleT_idem (v : Bool) :
    ∀ (p : List Nat) (t : Tree),
      toggleT (toggleT t p (some v)) p (some v) = toggleT t p (some v)
  | [], t => by
    simp only [toggleT_nil_some]
    exact setSelT_idem v t
  | i :: rest, .node d cs => by
    simp only [toggleT]
    rw [toggleF_idem v (i :: rest) cs]

theorem toggleF_idem (v : Bool) :
    ∀ (p : List Nat) (ts : List Tree),
      toggleF (toggleF ts p (some v)) p (some v) = toggleF ts p (some v)
  | [], ts => by simp [toggleF]
  | i :: rest, ts => by
    simp only [toggleF]
    exact modIdx_modIdx ts i _ (fun t => toggleT_idem v rest t)

end

mutual

theorem eraseSelT_setSelT (v : Bool) : ∀ t, eraseSelT (setSelT v t) = eraseSelT t
  | .node d cs => by
    simp only [setSelT, eraseSelT]
    rw [eraseSelF_setSelF v cs]

theorem eraseSelF_setSelF (v : Bool) :
    ∀ ts, eraseSelF (setSelF v ts) = eraseSelF ts
  | [] => rfl
  | t :: ts => by
    simp only [setSelF, eraseSelF]
    rw [eraseSelT_setSelT v t, eraseSelF_setSelF v ts]

end

theorem eraseSelF_modIdx : ∀ (l : List Tree) (i : Nat) (f : Tree → Tree),
    (∀ t, eraseSelT (f t) = eraseSelT t) → eraseSelF (modIdx l i f) = eraseSelF l
  | [], _, _, _ => rfl
  | t :: ts, 0, f, hf => by simp [modIdx, eraseSelF, hf]
  | t :: ts, i + 1, f, hf => by
    simp only [modIdx, eraseSelF]
    rw [eraseSelF_modIdx ts i f hf]

mutual

theorem eraseSelT_toggleT :
    ∀ (p : List Nat) (t : Tree) (v? : Option Bool),
      eraseSelT (toggleT t p v?) = eraseSelT t
  | [], t, v? => by
    simp only [toggleT]
    exact eraseSelT_setSelT _ t
  | i :: rest, .node d cs, v? => by
    simp only [toggleT, eraseSelT]
    rw [eraseSelF_toggleF (i :: rest) cs v?]

theorem eraseSelF_toggleF :
    ∀ (p : List Nat) (ts : List Tree) (v? : Option Bool),
      eraseSelF (toggleF ts p v?) = eraseSelF ts
  | [], ts, v? => by simp [toggleF]
  | i :: rest, ts, v? => by
    simp only [toggleF]
    exact eraseSelF_modIdx ts i _ (fun t => eraseSelT_toggleT rest t v?)

end

theorem foldl_modIdx_range (f : α → α) :
    ∀ (n : Nat) (l : List α),
      (List.range n).foldl (fun acc i => modIdx acc i f) l =
        (l.take n).map f ++ l.drop n := by
  intro n
  induction n with
  | zero => intro l; simp
  | succ n ih =>
    intro l
    rw [List.range_succ, List.foldl_append, ih]
    simp only [List.foldl_cons, List.foldl_nil]
    by_cases h : n < l.length
    · have hlen : ((l.take n).map f).length = n := by
        simp [Nat.le_of_lt h]
      rw [List.drop_eq_getElem_cons h]
      calc modIdx ((l.take n).map f ++ l[n] :: l.drop (n + 1)) n f
          = modIdx ((l.take n).map f ++ l[n] :: l.drop (n + 1))
              ((l.take n).map f).length f := by rw [hlen]
        _ = (l.take n).map f ++ f l[n] :: l.drop (n + 1) := by
            rw [modIdx_append]; rfl
        _ = (l.take (n + 1)).map f ++ l.drop (n + 1) := by
            rw [List.take_succ, List.getElem?_eq_getElem h]
            simp only [Option.toList_some, List.map_append, List.map_cons,
              List.map_nil, List.append_assoc, List.cons_append,
              List.nil_append]
    · have hle : l.length ≤ n := Nat.le_of_not_lt h
      rw [List.take_of_length_le hle, List.drop_of_length_le hle,
        List.take_of_length_le (Nat.le_succ_of_le hle),
        List.drop_of_length_le (Nat.le_succ_of_le hle), List.append_nil]
      exact modIdx_oob _ _ _ (by simpa using hle)

/-- `toggleAll(items, v)` ends up setting every root subtree to `v`. -/
theorem toggleAllF_eq_map (ts : List Tree) (v : Bool) :
    toggleAllF ts v = ts.map (setSelT v) := by
  unfold toggleAllF
  have : (fun (acc : List Tree) (i : Nat) => toggleF acc [i] (some v)) =
      fun acc i => modIdx acc i (setSelT v) := by
    funext acc i
    rw [toggleF_cons]
    congr 1
    funext t
    exact toggleT_nil_some v t
  rw [this, foldl_modIdx_range (setSelT v) ts.length ts,
    List.take_of_length_le (Nat.le_refl _), List.drop_of_length_le (Nat.le_refl _),
    List.append_nil]

theorem eraseSelF_map_setSelT (v : Bool) :
    ∀ ts : List Tree, eraseSelF (ts.map (setSelT v)) = eraseSelF ts
  | [] => rfl
  | t :: ts => by
    simp only [List.map_cons, eraseSelF]
    rw [eraseSelT_setSelT v t, eraseSelF_map_setSelT v ts]

/-- C6: for every row list and every in-range cursor, the up action moves
the cursor one row up and the down action one row down, each clamped so
the result stays within `[0, rowCount-1]` (vacuous at zero rows, where
the range is empty). -/
theorem cursor_moves_clamped (len : Nat) (c : Int)
    (h0 : 0 ≤ c) (h1 : c ≤ (len : Int) - 1) :
    (0 ≤ cursorUp c ∧ cursorUp c ≤ (len : Int) - 1 ∧
      (0 < c → cursorUp c = c - 1) ∧ (c = 0 → cursorUp c = 0)) ∧
    (0 ≤ cursorDown len c ∧ cursorDown len c ≤ (len : Int) - 1 ∧
      (c < (len : Int) - 1 → cursorDown len c = c + 1) ∧
      (c = (len : Int) - 1 → cursorDown len c = c)) := by
  simp only [cursorUp, cursorDown, max_def, min_def]
  refine ⟨⟨?_, ?_, ?_, ?_⟩, ?_, ?_, ?_, ?_⟩ <;> split_ifs <;> omega

/-- Witness for C6 at `len = 3`, `c = 1`. -/
theorem cursor_moves_clamped_witness :
    (0 ≤ cursorUp 1 ∧ cursorUp 1 ≤ (3 : Int) - 1 ∧
      (0 < (1 : Int) → cursorUp 1 = 1 - 1) ∧ ((1 : Int) = 0 → cursorUp 1 = 0)) ∧
    (0 ≤ cursorDown 3 1 ∧ cursorDown 3 1 ≤ (3 : Int) - 1 ∧
      ((1 : Int) < (3 : Int) - 1 → cursorDown 3 1 = 1 + 1) ∧
      ((1 : Int) = (3 : Int) - 1 → cursorDown 3 1 = 1)) :=
  cursor_moves_clamped 3 1 (by norm_num) (by norm_num)

/-- C8: `toggleSelection(node, v)` with an explicit value is idempotent:
a second identical call leaves the tree exactly as after the first, for
every node address and both values. -/
theorem toggleSelection_idempotent (ts : List Tree) (p : List Nat) (v : Bool) :
    toggleF (toggleF ts p (some v)) p (some v) = toggleF ts p (some v) :=
  toggleF_idem v p ts

/-- C9: `toggleSelection` (any node, explicit value or plain toggle) and
`toggleAll` change nothing but `selected` flags: erasing the selection
flags of the result gives back the original tree with its flags erased,
so paths, names, depths, `isDirectory`, `expanded` and the parent/child
structure are all untouched. -/
theorem toggle_only_touches_selection (ts : List Tree) :
    (∀ (p : List Nat) (v? : Option Bool),
      eraseSelF (toggleF ts p v?) = eraseSelF ts) ∧
    (∀ v : Bool, eraseSelF (toggleAllF ts v) = eraseSelF ts) := by
  constructor
  · intro p v?
    exact eraseSelF_toggleF p ts v?
  · intro v
    rw [toggleAllF_eq_map]
    exact eraseSelF_map_setSelT v ts

theorem setSelF_eq_map (v : Bool) :
    ∀ ts : List Tree, setSelF v ts = ts.map (setSelT v)
  | [] => by simp [setSelF]
  | t :: ts => by
    simp only [setSelF, List.map_cons]
    rw [setSelF_eq_map v ts]

mutual

theorem collectT_setSelT_true :
    ∀ t : Tree, collectT (setSelT true t) = (leavesT t).map mkBundle
  | .node d cs => by
    simp only [setSelT, collectT, leavesT, List.map_append]
    rw [collectF_setSelF_true cs]
    by_cases h : d.isDirectory
    · simp [h]
    · simp only [Bool.not_eq_true] at h
      simp [h, mkBundle]

theorem collectF_setSelF_true :
    ∀ ts : List Tree, collectF (setSelF true ts) = (leavesF ts).map mkBundle
  | [] => by simp [setSelF, collectF, leavesF]
  | t :: ts => by
    simp only [setSelF, collectF, leavesF, List.map_append]
    rw [collectT_setSelT_true t, collectF_setSelF_true ts]

end

theorem bundleLe_trans (a b c : BundleFile) :
    bundleLe a b → bundleLe b c → bundleLe a c := by
  intro h1 h2
  exact strLe_trans _ _ _ h1 h2

theorem bundleLe_total (a b : BundleFile) : (bundleLe a b || bundleLe b a) = true :=
  strLe_total a.relativePath b.relativePath

/-- C5: after `toggleAll(tree, true)`, `getSelectedFiles` returns exactly
the descriptors of all non-directory nodes of the tree (a permutation of
the pre-order leaf list), sorted by relative path — for every tree shape
and expand state. -/
theorem toggleAll_then_collect_is_all_leaves (ts : List Tree) :
    List.Perm (getSelectedFiles (toggleAllF ts true)) ((leavesF ts).map mkBundle) ∧
    List.Pairwise (fun a b => bundleLe a b = true)
      (getSelectedFiles (toggleAllF ts true)) := by
  have hc : collectF (toggleAllF ts true) = (leavesF ts).map mkBundle := by
    rw [toggleAllF_eq_map, ← setSelF_eq_map, collectF_setSelF_true]
  constructor
  · unfold getSelectedFiles
    exact (List.mergeSort_perm _ bundleLe).trans (hc ▸ List.Perm.refl _)
  · unfold getSelectedFiles
    exact List.sorted_mergeSort bundleLe_trans bundleLe_total _

theorem sel_setSelT (v : Bool) (t : Tree) : (setSelT v t).sel = v := by
  cases t with
  | node d cs => simp [setSelT, Tree.sel, Tree.data]

theorem allChildrenSel_setSelF (v : Bool) :
    ∀ l : List Tree, allChildrenSel (setSelF v l) = (l.isEmpty || v)
  | [] => by simp [setSelF, allChildrenSel]
  | c :: l => by
    have ih := allChildrenSel_setSelF v l
    simp only [setSelF, allChildrenSel, List.all_cons, List.isEmpty_cons] at *
    rw [sel_setSelT, ih]
    cases v <;> simp

mutual

theorem invT_setSelT (v : Bool) : ∀ t : Tree, invT (setSelT v t) = true
  | .node d cs => by
    simp only [setSelT, invT, Bool.and_eq_true]
    refine ⟨?_, invF_setSelF v cs⟩
    rw [allChildrenSel_setSelF]
    cases cs <;> cases v <;> simp [setSelF]

theorem invF_setSelF (v : Bool) : ∀ ts : List Tree, invF (setSelF v ts) = true
  | [] => by simp [setSelF, invF]
  | t :: ts => by
    simp only [setSelF, invF, Bool.and_eq_true]
    exact ⟨invT_setSelT v t, invF_setSelF v ts⟩

end

theorem invF_modIdx : ∀ (l : List Tree) (i : Nat) (f : Tree → Tree),
    invF l = true → (∀ t, invT t = true → invT (f t) = true) →
    invF (modIdx l i f) = true
  | [], _, _, h, _ => h
  | t :: ts, 0, f, h, hf => by
    simp only [modIdx, invF, Bool.and_eq_true] at *
    exact ⟨hf t h.1, h.2⟩
  | t :: ts, i + 1, f, h, hf => by
    simp only [modIdx, invF, Bool.and_eq_true] at *
    exact ⟨h.1, invF_modIdx ts i f h.2 hf⟩

mutual

theorem invT_toggleT :
    ∀ (p : List Nat) (t : Tree) (v? : Option Bool),
      invT t = true → invT (toggleT t p v?) = true
  | [], t, v?, _ => by
    simp only [toggleT]
    exact invT_setSelT _ t
  | i :: rest, .node d cs, v?, h => by
    simp only [toggleT, invT, Bool.and_eq_true]
    simp only [invT, Bool.and_eq_true] at h
    refine ⟨?_, invF_toggleF (i :: rest) cs v? h.2⟩
    cases hcs : toggleF cs (i :: rest) v? <;> simp [allChildrenSel]

theorem invF_toggleF :
    ∀ (p : List Nat) (ts : List Tree) (v? : Option Bool),
      invF ts = true → invF (toggleF ts p v?) = true
  | [], ts, v?, h => by simpa [toggleF] using h
  | i :: rest, ts, v?, h => by
    rw [toggleF_cons]
    exact invF_modIdx ts i _ h (fun t ht => invT_toggleT rest t v? ht)

end

/-- C1: if a tree satisfies the selection-consistency invariant, then
after any single `toggleSelection` call — on any node, with or without an
explicit value — every directory with at least one child still has
`selected` equal to the AND of its direct children's `selected`, at
every depth up to the root. -/
theorem toggleSelection_preserves_invariant
    (ts : List Tree) (p : List Nat) (v? : Option Bool)
    (h : invF ts = true) : invF (toggleF ts p v?) = true :=
  invF_toggleF p ts v? h

/-- Witness for C1: the Scenario-A tree satisfies the invariant and still
does after toggling `main.ts` (address `[1, 1]`). -/
theorem toggleSelection_preserves_invariant_witness :
    invF exTree = true ∧ invF (toggleF exTree [1, 1] none) = true :=
  ⟨by simp [invF, invT, exTree, mkLeaf, mkDir, allChildrenSel, Tree.sel,
      Tree.data],
    toggleSelection_preserves_invariant exTree [1, 1] none
      (by simp [invF, invT, exTree, mkLeaf, mkDir, allChildrenSel, Tree.sel,
        Tree.data])⟩

/-- The footer's length computation never changes under the sort, so the
footer count is the length of the raw pre-order collection over the rows. -/
theorem footerCount_eq_collect_length (flat : List Tree) :
    footerCount flat = (collectF flat).length := by
  unfold footerCount getSelectedFiles
  rw [List.map_id, List.length_mergeSort]

/-- C2 fails on the code: with one expanded directory whose single child
file is selected, the footer reports 2 although exactly one distinct
leaf file is selected.  `render` passes the flattened rows to
`getSelectedFiles`, which counts the leaf once under its directory row
and once as its own row. -/
theorem render_footer_overcounts :
    footerCount (flattenF exFooterTree) = 2 ∧
    (collectF exFooterTree).length = 1 := by
  rw [footerCount_eq_collect_length]
  constructor <;>
    simp [collectF, collectT, flattenF, flattenT, exFooterTree, mkLeaf,
      mkDir, mkBundle, Tree.isDir, Tree.data]

theorem isDirAt_oob (l : List Tree) (m : Nat) (h : l.length ≤ m) :
    isDirAt l m = false := by
  simp [isDirAt, List.get?_eq_getElem?, List.getElem?_eq_none h]

theorem scanUp_char (l : List Tree) (k : Nat)
    (Hk : ∀ m, isDirAt l m = true ↔ m = k) :
    ∀ i stop, scanUp l i stop = if i ≤ k ∧ k < stop then some k else none := by
  intro i stop
  generalize hfuel : stop - i = fuel
  induction fuel generalizing i with
  | zero =>
    rw [scanUp]
    have h : ¬ i < stop := by omega
    rw [if_neg h, if_neg (by omega)]
  | succ n ih =>
    rw [scanUp]
    have h : i < stop := by omega
    rw [if_pos h]
    by_cases hd : isDirAt l i = true
    · have : i = k := (Hk i).mp hd
      rw [hd, if_pos rfl, if_pos (by omega)]
      exact congrArg some this
    · have hik : i ≠ k := fun he => hd (((Hk i).mpr he))
      rw [Bool.not_eq_true] at hd
      rw [hd, if_neg (by simp), ih (i + 1) (by omega)]
      by_cases hk : i + 1 ≤ k ∧ k < stop
      · rw [if_pos hk, if_pos (by omega)]
      · rw [if_neg hk, if_neg (by omega)]

theorem scanDownFrom_char (l : List Tree) (k : Nat)
    (Hk : ∀ m, isDirAt l m = true ↔ m = k) :
    ∀ i, scanDownFrom l i = if k ≤ i then some k else none
  | 0 => by
    rw [scanDownFrom]
    by_cases hd : isDirAt l 0 = true
    · have h0 : (0 : Nat) = k := (Hk 0).mp hd
      rw [hd, if_pos rfl, if_pos (by omega)]
      exact congrArg some h0
    · have hik : (0 : Nat) ≠ k := fun he => hd ((Hk 0).mpr he)
      rw [Bool.not_eq_true] at hd
      rw [hd, if_neg (by simp), if_neg (by omega)]
  | i + 1 => by
    rw [scanDownFrom]
    by_cases hd : isDirAt l (i + 1) = true
    · have h0 : i + 1 = k := (Hk (i + 1)).mp hd
      rw [hd, if_pos rfl, if_pos (by omega)]
      exact congrArg some h0
    · have hik : i + 1 ≠ k := fun he => hd ((Hk (i + 1)).mpr he)
      rw [Bool.not_eq_true] at hd
      rw [hd, if_neg (by simp), scanDownFrom_char l k Hk i]
      by_cases hk : k ≤ i
      · rw [if_pos hk, if_pos (by omega)]
      · rw [if_neg hk, if_neg (by omega)]

theorem scanDownTo_char (l : List Tree) (k : Nat)
    (Hk : ∀ m, isDirAt l m = true ↔ m = k) :
    ∀ i stop, scanDownTo l i stop = if stop < k ∧ k ≤ i then some k else none := by
  intro i
  induction i using Nat.strong_induction_on with
  | _ i ih =>
    intro stop
    rw [scanDownTo]
    by_cases h : stop < i
    · rw [if_pos h]
      by_cases hd : isDirAt l i = true
      · have h0 : i = k := (Hk i).mp hd
        rw [hd, if_pos rfl, if_pos (by omega)]
        exact congrArg some h0
      · have hik : i ≠ k := fun he => hd ((Hk i).mpr he)
        rw [Bool.not_eq_true] at hd
        rw [hd, if_neg (by simp), ih (i - 1) (by omega) stop]
        by_cases hk : stop < k ∧ k ≤ i - 1
        · rw [if_pos hk, if_pos (by omega)]
        · rw [if_neg hk, if_neg (by omega)]
    · rw [if_neg h, if_neg (by omega)]

theorem scanUp_none (l : List Tree) (H0 : ∀ m, isDirAt l m = false) :
    ∀ i stop, scanUp l i stop = none := by
  intro i stop
  generalize hfuel : stop - i = fuel
  induction fuel generalizing i with
  | zero =>
    rw [scanUp, if_neg (by omega)]
  | succ n ih =>
    rw [scanUp, if_pos (by omega), H0 i, if_neg (by simp)]
    exact ih (i + 1) (by omega)

theorem scanDownFrom_none (l : List Tree) (H0 : ∀ m, isDirAt l m = false) :
    ∀ i, scanDownFrom l i = none
  | 0 => by rw [scanDownFrom, H0 0, if_neg (by simp)]
  | i + 1 => by
    rw [scanDownFrom, H0 (i + 1), if_neg (by simp)]
    exact scanDownFrom_none l H0 i

theorem scanDownTo_none (l : List Tree) (H0 : ∀ m, isDirAt l m = false) :
    ∀ i stop, scanDownTo l i stop = none := by
  intro i
  induction i using Nat.strong_induction_on with
  | _ i ih =>
    intro stop
    rw [scanDownTo]
    by_cases h : stop < i
    · rw [if_pos h, H0 i, if_neg (by simp)]
      exact ih (i - 1) (by omega) stop
    · rw [if_neg h]

/-- C7: in a flattened row list with exactly one directory row, at index
`k`, both folder jumps land on `k` from every starting index (including
`k` itself); in a list without directory rows both are a no-op. -/
theorem find_folder_single_directory :
    (∀ (flat : List Tree) (k c : Nat), k < flat.length →
      (∀ i, i < flat.length → (isDirAt flat i = true ↔ i = k)) →
      findNextFolder flat c = k ∧ findPrevFolder flat c = k) ∧
    (∀ (flat : List Tree) (c : Nat),
      (∀ i, i < flat.length → isDirAt flat i = false) →
      findNextFolder flat c = c ∧ findPrevFolder flat c = c) := by
  constructor
  · intro flat k c hk H
    have Hk : ∀ m, isDirAt flat m = true ↔ m = k := by
      intro m
      by_cases hm : m < flat.length
      · exact H m hm
      · constructor
        · intro hd
          rw [isDirAt_oob flat m (by omega)] at hd
          exact absurd hd (by simp)
        · intro he
          omega
    have hlen : flat.length ≠ 0 := by omega
    constructor
    · unfold findNextFolder
      rw [scanUp_char flat k Hk (c + 1) flat.length, scanUp_char flat k Hk 0 c]
      by_cases h1 : c + 1 ≤ k ∧ k < flat.length
      · rw [if_pos h1]
      · rw [if_neg h1]
        by_cases h2 : 0 ≤ k ∧ k < c
        · rw [if_pos h2]
        · rw [if_neg h2]
          show c = k
          omega
    · unfold findPrevFolder
      by_cases hc : c = 0
      · rw [if_pos hc, if_neg hlen,
          scanDownTo_char flat k Hk (flat.length - 1) c]
        by_cases h2 : c < k ∧ k ≤ flat.length - 1
        · rw [if_pos h2]
        · rw [if_neg h2]
          show c = k
          omega
      · rw [if_neg hc, scanDownFrom_char flat k Hk (c - 1)]
        by_cases h1 : k ≤ c - 1
        · rw [if_pos h1]
        · rw [if_neg h1, if_neg hlen,
            scanDownTo_char flat k Hk (flat.length - 1) c]
          by_cases h2 : c < k ∧ k ≤ flat.length - 1
          · rw [if_pos h2]
          · rw [if_neg h2]
            show c = k
            omega
  · intro flat c H
    have H0 : ∀ m, isDirAt flat m = false := by
      intro m
      by_cases hm : m < flat.length
      · exact H m hm
      · exact isDirAt_oob flat m (by omega)
    constructor
    · unfold findNextFolder
      rw [scanUp_none flat H0, scanUp_none flat H0]
    · unfold findPrevFolder
      by_cases hc : c = 0
      · rw [if_pos hc]
        by_cases hl : flat.length = 0
        · rw [if_pos hl]
        · rw [if_neg hl, scanDownTo_none flat H0]
      · rw [if_neg hc, scanDownFrom_none flat H0]
        by_cases hl : flat.length = 0
        · rw [if_pos hl]
        · rw [if_neg hl, scanDownTo_none flat H0]

/-- Witness for C7: the Scenario-A root rows `[a.ts, src]` have their one
directory at index 1 and both jumps from cursor 0 land on 1; in a
one-file row list both jumps stay at 0. -/
theorem find_folder_single_directory_witness :
    (findNextFolder exTree 0 = 1 ∧ findPrevFolder exTree 0 = 1) ∧
    (findNextFolder [mkLeaf "/r/a.ts".toList "a.ts".toList "a.ts".toList] 0 = 0 ∧
      findPrevFolder [mkLeaf "/r/a.ts".toList "a.ts".toList "a.ts".toList] 0 = 0) :=
  ⟨find_folder_single_directory.1 exTree 1 0 (by decide) (by decide),
    find_folder_single_directory.2 _ 0 (by decide)⟩

theorem splitOnChar_ne_nil (sep : Char) : ∀ cs : Str, splitOnChar sep cs ≠ []
  | [] => by simp [splitOnChar]
  | c :: cs => by
    simp only [splitOnChar]
    split
    · simp
    · cases h : splitOnChar sep cs <;> simp

theorem splitOnChar_no_sep (sep : Char) :
    ∀ cs : Str, cs.contains sep = false → splitOnChar sep cs = [cs]
  | [], _ => rfl
  | c :: cs, h => by
    simp only [List.contains_cons, Bool.or_eq_false_iff] at h
    have hc : ¬ c = sep := by
      intro he
      rw [he] at h
      simp at h
    simp only [splitOnChar, if_neg hc,
      splitOnChar_no_sep sep cs (by simpa using h.2)]

theorem splitOnChar_has_sep (sep : Char) :
    ∀ cs : Str, cs.contains sep = true →
      ∃ a b bs, splitOnChar sep cs = a :: b :: bs
  | [], h => by simp at h
  | c :: cs, h => by
    simp only [splitOnChar]
    by_cases hc : c = sep
    · rw [if_pos hc]
      obtain ⟨u, us, hus⟩ := List.exists_cons_of_ne_nil (splitOnChar_ne_nil sep cs)
      exact ⟨[], u, us, by rw [hus]⟩
    · rw [if_neg hc]
      have hcs : cs.contains sep = true := by
        simp only [List.contains_cons] at h
        rcases Bool.or_eq_true_iff.mp h with h1 | h1
        · exact absurd (show c = sep from by
            have h2 : sep = c := by simpa using h1
            exact h2.symm) hc
        · exact h1
      obtain ⟨a, b, bs, hab⟩ := splitOnChar_has_sep sep cs hcs
      rw [hab]
      exact ⟨c :: a, b, bs, rfl⟩

theorem takeWhile_append_all (p : α → Bool) :
    ∀ xs ys : List α, xs.all p = true →
      (xs ++ ys).takeWhile p = xs ++ ys.takeWhile p
  | [], ys, _ => rfl
  | x :: xs, ys, h => by
    simp only [List.all_cons, Bool.and_eq_true] at h
    simp only [List.cons_append, List.takeWhile_cons, h.1, if_pos]
    rw [takeWhile_append_all p xs ys h.2]

theorem takeWhile_append_stop (p : α → Bool) :
    ∀ xs ys : List α, xs.all p = false →
      (xs ++ ys).takeWhile p = xs.takeWhile p
  | [], ys, h => by simp at h
  | x :: xs, ys, h => by
    simp only [List.all_cons, Bool.and_eq_false_iff] at h
    by_cases hx : p x = true
    · simp only [List.cons_append, List.takeWhile_cons, hx, if_pos]
      rcases h with h | h
      · exact absurd hx (by simp [h])
      · rw [takeWhile_append_stop p xs ys h]
    · rw [Bool.not_eq_true] at hx
      simp [List.takeWhile_cons, hx]

/-- The key string fact: the last group of `name.split(".")` is the
suffix of `name` after its last `.` (and the whole of `name` when there
is no `.`). -/
theorem splitOnChar_getLastD :
    ∀ s : Str, (splitOnChar '.' s).getLastD [] =
      (s.reverse.takeWhile (fun ch => ch ≠ '.')).reverse
  | [] => by simp [splitOnChar]
  | c :: cs => by
    have ih := splitOnChar_getLastD cs
    by_cases hdot : cs.contains '.' = true
    · have hall : cs.reverse.all (fun ch => ch ≠ '.') = false := by
        rw [Bool.eq_false_iff]
        intro hall
        rw [List.all_eq_true] at hall
        have hmem : ('.' : Char) ∈ cs := by
          have := List.contains_iff_exists_mem_beq.mp hdot
          obtain ⟨a, ha, hae⟩ := this
          have h2 : ('.' : Char) = a := by simpa using hae
          rwa [h2.symm] at ha
        have := hall '.' (by simpa using hmem)
        simp at this
      have hR : ((c :: cs).reverse.takeWhile (fun ch => ch ≠ '.')).reverse =
          (cs.reverse.takeWhile (fun ch => ch ≠ '.')).reverse := by
        rw [List.reverse_cons, takeWhile_append_stop _ _ _ hall]
      rw [hR, ← ih]
      obtain ⟨a, b, bs, hab⟩ := splitOnChar_has_sep '.' cs hdot
      simp only [splitOnChar]
      by_cases hc : c = '.'
      · rw [if_pos hc, hab]
        simp [List.getLastD_cons]
      · rw [if_neg hc, hab]
        simp [List.getLastD_cons]
    · rw [Bool.not_eq_true] at hdot
      have hall : cs.reverse.all (fun ch => ch ≠ '.') = true := by
        rw [List.all_eq_true]
        intro x hx
        have hxm : x ∈ cs := by simpa using hx
        simp only [ne_eq, decide_eq_true_eq]
        intro he
        rw [he] at hxm
        have : cs.contains '.' = true := by
          exact List.elem_eq_true_of_mem hxm
        rw [this] at hdot
        exact absurd hdot (by simp)
      have hsplit := splitOnChar_no_sep '.' cs hdot
      simp only [splitOnChar]
      by_cases hc : c = '.'
      · rw [if_pos hc, hsplit, List.getLastD_cons, List.getLastD_cons,
          List.reverse_cons, hc, takeWhile_append_all _ _ _ hall]
        simp
      · rw [if_neg hc, hsplit, List.getLastD_cons, List.reverse_cons,
          takeWhile_append_all _ _ _ hall]
        simp only [List.takeWhile_cons]
        rw [if_pos (by simpa using hc)]
        simp

/-- The source's extension computation agrees with the spec's wording
("the substring after the last `.`; empty when there is no `.`"). -/
theorem extOf_eq_specExt (name : Str) : extOf name = specExt name := by
  unfold extOf specExt
  by_cases h : name.contains '.' = true
  · rw [if_pos h, if_pos h]
    exact splitOnChar_getLastD name
  · rw [Bool.not_eq_true] at h
    rw [h]
    simp

mutual

theorem mem_collectT :
    ∀ (t : Tree) (f : BundleFile), f ∈ collectT t →
      ∃ u, u ∈ nodesT t ∧ u.sel = true ∧ u.isDir = false ∧ f = mkBundle u.data
  | .node d cs, f, hf => by
    simp only [collectT, List.mem_append] at hf
    rcases hf with hf | hf
    · refine ⟨.node d cs, ?_, ?_, ?_, ?_⟩
      · simp [nodesT]
      all_goals
        rcases hsel : d.selected && !d.isDirectory with _ | _
        · rw [hsel] at hf
          simp at hf
        · simp only [Bool.and_eq_true, Bool.not_eq_true'] at hsel
          rw [show (d.selected && !d.isDirectory) = true by
            simp [hsel.1, hsel.2]] at hf
          simp only [if_pos, List.mem_singleton] at hf
          first
            | simpa [Tree.sel, Tree.data] using hsel.1
            | simpa [Tree.isDir, Tree.data] using hsel.2
            | simpa [Tree.data] using hf
    · obtain ⟨u, hu, h1, h2, h3⟩ := mem_collectF cs f hf
      exact ⟨u, by simp [nodesT, hu], h1, h2, h3⟩

theorem mem_collectF :
    ∀ (ts : List Tree) (f : BundleFile), f ∈ collectF ts →
      ∃ u, u ∈ nodesF ts ∧ u.sel = true ∧ u.isDir = false ∧ f = mkBundle u.data
  | [], f, hf => by simp [collectF] at hf
  | t :: ts, f, hf => by
    simp only [collectF, List.mem_append] at hf
    rcases hf with hf | hf
    · obtain ⟨u, hu, h1, h2, h3⟩ := mem_collectT t f hf
      exact ⟨u, by simp [nodesF, hu], h1, h2, h3⟩
    · obtain ⟨u, hu, h1, h2, h3⟩ := mem_collectF ts f hf
      exact ⟨u, by simp [nodesF, hu], h1, h2, h3⟩

end

/-- C10: every descriptor `getSelectedFiles` returns comes from a
selected non-directory node, with `extension` equal to the substring of
the node's name after the last `.` (empty when the name has no `.`); in
particular a name `.env` yields extension `env`. -/
theorem selected_file_extension :
    (∀ (ts : List Tree) (f : BundleFile), f ∈ getSelectedFiles ts →
      ∃ u, u ∈ nodesF ts ∧ u.sel = true ∧ u.isDir = false ∧
        f = mkBundle u.data ∧ f.extension = specExt u.data.name) ∧
    extOf ".env".toList = "env".toList := by
  constructor
  · intro ts f hf
    rw [getSelectedFiles, List.mem_mergeSort] at hf
    obtain ⟨u, hu, h1, h2, h3⟩ := mem_collectF ts f hf
    refine ⟨u, hu, h1, h2, h3, ?_⟩
    rw [h3]
    exact extOf_eq_specExt u.data.name
  · rw [extOf_eq_specExt]
    simp [specExt]

/-- Witness for C10 at a tree with one selected `.env` leaf. -/
theorem selected_file_extension_witness :
    ∃ u, u ∈ nodesF [mkLeaf "/r/.env".toList ".env".toList ".env".toList true] ∧
      u.sel = true ∧ u.isDir = false ∧
      ({ absolutePath := "/r/.env".toList, relativePath := ".env".toList,
         extension := "env".toList } : BundleFile) = mkBundle u.data ∧
      ({ absolutePath := "/r/.env".toList, relativePath := ".env".toList,
         extension := "env".toList } : BundleFile).extension =
        specExt u.data.name :=
  selected_file_extension.1
    [mkLeaf "/r/.env".toList ".env".toList ".env".toList true] _
    (by
      rw [getSelectedFiles, List.mem_mergeSort]
      simp [collectF, collectT, mkLeaf, mkBundle, extOf, splitOnChar])

theorem isEmpty_append (a b : List α) :
    (a ++ b).isEmpty = (a.isEmpty && b.isEmpty) := by
  cases a <;> simp

mutual

theorem specFilterT_isEmpty (q : Str) :
    ∀ t : Tree, (specFilterT q t).isEmpty = !(specRetainT q t)
  | .node d cs => by
    cases hd : d.isDirectory
    · have h1 : specFilterT q (.node d cs) =
          if specMatches q (.node d cs) then [Tree.node d cs] else [] := by
        rw [specFilterT, hd]
        simp
      have h2 : specRetainT q (.node d cs) = specMatches q (.node d cs) := by
        rw [specRetainT, hd]
        simp
      rw [h1, h2]
      cases specMatches q (.node d cs) <;> simp
    · have h1 : specFilterT q (.node d cs) =
          if specRetainT q (.node d cs) then
            [Tree.node { d with expanded := true } (specFilterF q cs)]
          else [] := by
        rw [specFilterT, hd]
        rw [show specRetainT q (.node d cs) =
            (specMatches q (.node d cs) || specRetainF q cs) by
          rw [specRetainT, hd]
          simp]
        simp
      rw [h1]
      cases specRetainT q (.node d cs) <;> simp

theorem specFilterF_isEmpty (q : Str) :
    ∀ ts : List Tree, (specFilterF q ts).isEmpty = !(specRetainF q ts)
  | [] => by simp [specFilterF, specRetainF]
  | t :: ts => by
    rw [show specFilterF q (t :: ts) = specFilterT q t ++ specFilterF q ts by
        rw [specFilterF],
      show specRetainF q (t :: ts) = (specRetainT q t || specRetainF q ts) by
        rw [specRetainF],
      isEmpty_append, specFilterT_isEmpty q t, specFilterF_isEmpty q ts]
    cases specRetainT q t <;> cases specRetainF q ts <;> rfl

end

theorem specFilterF_pos (q : Str) (ts : List Tree) :
    decide ((specFilterF q ts).length > 0) = specRetainF q ts := by
  have h := specFilterF_isEmpty q ts
  cases hr : specRetainF q ts <;> rw [hr] at h
  · simp only [Bool.not_false] at h
    rw [List.isEmpty_iff] at h
    simp [h]
  · simp only [Bool.not_true] at h
    rw [List.isEmpty_eq_false_iff_exists_mem] at h
    obtain ⟨x, hx⟩ := h
    have : 0 < (specFilterF q ts).length := List.length_pos_of_mem hx
    simp [this]

mutual

theorem filterItemsT_spec (q : Str) :
    ∀ t : Tree, filterItemsT (lowerStr q) t = specFilterT q t
  | .node d cs => by
    cases hd : d.isDirectory
    · have h1 : filterItemsT (lowerStr q) (.node d cs) =
          if matchesQuery (lowerStr q) (.node d cs) then [Tree.node d cs]
          else [] := by
        rw [filterItemsT, hd]
        simp
      have h2 : specFilterT q (.node d cs) =
          if specMatches q (.node d cs) then [Tree.node d cs] else [] := by
        rw [specFilterT, hd]
        simp
      rw [h1, h2, specMatches]
    · have h1 : filterItemsT (lowerStr q) (.node d cs) =
          if (decide ((filterItemsF (lowerStr q) cs).length > 0) ||
              matchesQuery (lowerStr q) (.node d cs)) then
            [Tree.node { d with expanded := true } (filterItemsF (lowerStr q) cs)]
          else [] := by
        rw [filterItemsT, hd]
        simp
      have h2 : specFilterT q (.node d cs) =
          if (specMatches q (.node d cs) || specRetainF q cs) then
            [Tree.node { d with expanded := true } (specFilterF q cs)]
          else [] := by
        rw [specFilterT, hd]
        rw [show specRetainT q (.node d cs) =
            (specMatches q (.node d cs) || specRetainF q cs) by
          rw [specRetainT, hd]
          simp]
        simp
      rw [h1, h2, filterItemsF_spec q cs, specFilterF_pos q cs, specMatches,
        Bool.or_comm]

theorem filterItemsF_spec (q : Str) :
    ∀ ts : List Tree, filterItemsF (lowerStr q) ts = specFilterF q ts
  | [] => by
    rw [filterItemsF, specFilterF]
  | t :: ts => by
    rw [show filterItemsF (lowerStr q) (t :: ts) =
        filterItemsT (lowerStr q) t ++ filterItemsF (lowerStr q) ts by
      rw [filterItemsF]]
    rw [show specFilterF q (t :: ts) = specFilterT q t ++ specFilterF q ts by
      rw [specFilterF]]
    rw [filterItemsT_spec q t, filterItemsF_spec q ts]

end

/-- C4: for a non-empty query, `filterTree` is exactly the spec's filter:
a leaf is retained iff its name or relative path contains the query
case-insensitively, a directory iff it matches directly or has a
retained descendant, every retained directory's copy is expanded; and on
the Scenario-A tree the query `main` flattens to exactly the rows
`src/` (auto-expanded) and `main.ts`, excluding `src/lib/x.ts`. -/
theorem filterTree_matches_spec :
    (∀ (items : List Tree) (q : Str), q ≠ [] →
      filterTree items q = specFilterF q items) ∧
    (flattenF (filterTree exTree "main".toList)).map Tree.data =
      [ ({ path := "/r/src".toList, relativePath := "src".toList,
           name := "src".toList, isDirectory := true, depth := 0,
           selected := false, expanded := true } : NodeData),
        ({ path := "/r/src/main.ts".toList, relativePath := "src/main.ts".toList,
           name := "main.ts".toList, isDirectory := false, depth := 0,
           selected := false, expanded := false } : NodeData) ] := by
  constructor
  · intro items q hq
    rw [filterTree, if_neg hq]
    exact filterItemsF_spec q items
  · simp [filterTree, filterItemsF, filterItemsT, matchesQuery, strIncludes,
      strStartsWith, lowerStr, Char.toLower, exTree, mkLeaf, mkDir,
      flattenF, flattenT, Tree.data]

/-- Witness for C4 at the Scenario-A tree and query `main`. -/
theorem filterTree_matches_spec_witness :
    filterTree exTree "main".toList = specFilterF "main".toList exTree :=
  filterTree_matches_spec.1 exTree "main".toList (by simp)

theorem entryLe_trans (a b c : Entry) :
    entryLe a b → entryLe b c → entryLe a c := by
  intro h1 h2
  exact strLe_trans _ _ _ h1 h2

theorem entryLe_total (a b : Entry) : (entryLe a b || entryLe b a) = true :=
  strLe_total (pathStr a.path) (pathStr b.path)

theorem nodesF_cons (t : Tree) (ts : List Tree) :
    nodesF (t :: ts) = nodesT t ++ nodesF ts := by
  rw [nodesF]

theorem nodesT_node (d : NodeData) (cs : List Tree) :
    nodesT (.node d cs) = .node d cs :: nodesF cs := by
  rw [nodesT]

theorem nodesF_append : ∀ a b : List Tree, nodesF (a ++ b) = nodesF a ++ nodesF b
  | [], b => by rw [List.nil_append, nodesF, List.nil_append]
  | t :: a, b => by
    rw [List.cons_append, nodesF_cons, nodesF_cons, nodesF_append a b,
      List.append_assoc]

theorem mem_nodesF_of_mem : ∀ (ts : List Tree) (t : Tree), t ∈ ts → t ∈ nodesF ts
  | t' :: ts, t, h => by
    rw [nodesF_cons]
    rcases List.mem_cons.mp h with h | h
    · subst h
      cases t with
      | node d cs =>
        rw [List.mem_append, nodesT_node]
        exact Or.inl (List.mem_cons_self _ _)
    · exact List.mem_append.mpr (Or.inr (mem_nodesF_of_mem ts t h))

theorem sortedF_nil : sortedF [] := by
  rw [sortedF]
  trivial

theorem sortedF_cons (t : Tree) (ts : List Tree) :
    sortedF (t :: ts) ↔ sortedT t ∧ sortedF ts := by
  rw [sortedF]

theorem sortedT_node (d : NodeData) (cs : List Tree) :
    sortedT (.node d cs) ↔
      cs.Pairwise (fun a b => pathLe a b = true) ∧ sortedF cs := by
  rw [sortedT]

theorem sortedF_append : ∀ a b : List Tree,
    sortedF (a ++ b) ↔ sortedF a ∧ sortedF b
  | [], b => by
    rw [List.nil_append]
    exact ⟨fun h => ⟨sortedF_nil, h⟩, fun h => h.2⟩
  | t :: a, b => by
    rw [List.cons_append, sortedF_cons, sortedF_cons, sortedF_append a b,
      and_assoc]

theorem boundF_nil (s : Str) : boundF s [] := by
  intro u hu
  rw [nodesF] at hu
  simp at hu

theorem boundF_cons (s : Str) (t : Tree) (ts : List Tree) :
    boundF s (t :: ts) ↔ boundT s t ∧ boundF s ts := by
  unfold boundF boundT
  rw [nodesF_cons]
  constructor
  · intro h
    exact ⟨fun u hu => h u (List.mem_append.mpr (Or.inl hu)),
      fun u hu => h u (List.mem_append.mpr (Or.inr hu))⟩
  · intro h u hu
    rcases List.mem_append.mp hu with hu | hu
    · exact h.1 u hu
    · exact h.2 u hu

theorem boundT_node (s : Str) (d : NodeData) (cs : List Tree) :
    boundT s (.node d cs) ↔ strLe d.path s = true ∧ boundF s cs := by
  unfold boundT boundF
  rw [nodesT_node]
  constructor
  · intro h
    exact ⟨h _ (List.mem_cons_self _ _),
      fun u hu => h u (List.mem_cons_of_mem _ hu)⟩
  · intro h u hu
    rcases List.mem_cons.mp hu with hu | hu
    · subst hu
      exact h.1
    · exact h.2 u hu

theorem boundF_append (s : Str) (a b : List Tree) :
    boundF s (a ++ b) ↔ boundF s a ∧ boundF s b := by
  unfold boundF
  rw [nodesF_append]
  constructor
  · intro h
    exact ⟨fun u hu => h u (List.mem_append.mpr (Or.inl hu)),
      fun u hu => h u (List.mem_append.mpr (Or.inr hu))⟩
  · intro h u hu
    rcases List.mem_append.mp hu with hu | hu
    · exact h.1 u hu
    · exact h.2 u hu

theorem pairwise_of_map_data_eq (ts ts' : List Tree)
    (h : ts'.map Tree.data = ts.map Tree.data)
    (hp : ts.Pairwise (fun a b => pathLe a b = true)) :
    ts'.Pairwise (fun a b => pathLe a b = true) := by
  have key : ∀ l : List Tree, l.Pairwise (fun a b => pathLe a b = true) ↔
      (l.map Tree.data).Pairwise (fun a b => strLe a.path b.path = true) := by
    intro l
    rw [List.pairwise_map]
    rfl
  rw [key, h, ← key]
  exact hp

mutual

theorem attachT_props (key : Str) (child : Tree) :
    ∀ (t t' : Tree), attachT key child t = some t' →
      t'.data = t.data ∧
      (sortedT t → sortedT child → boundT child.data.path t → sortedT t') ∧
      (∀ s, boundT s t → boundT s child → boundT s t')
  | .node d cs, t', h => by
    rw [attachT] at h
    by_cases hc : (d.isDirectory && d.path = key) = true
    · rw [if_pos hc] at h
      have ht' : t' = .node d (cs ++ [child]) := (Option.some.inj h).symm
      subst ht'
      refine ⟨rfl, ?_, ?_⟩
      · intro hs hsc hbd
        rw [sortedT_node] at hs ⊢
        constructor
        · rw [List.pairwise_append]
          refine ⟨hs.1, List.pairwise_singleton _ _, ?_⟩
          intro a ha b hbm
          have hbc : b = child := by simpa using hbm
          subst hbc
          have haN : a ∈ nodesT (.node d cs) := by
            rw [nodesT_node]
            exact List.mem_cons_of_mem _ (mem_nodesF_of_mem cs a ha)
          exact hbd a haN
        · rw [sortedF_append]
          exact ⟨hs.2, (sortedF_cons child []).mpr ⟨hsc, sortedF_nil⟩⟩
      · intro s hbs hbc
        rw [boundT_node] at hbs ⊢
        refine ⟨hbs.1, ?_⟩
        rw [boundF_append]
        refine ⟨hbs.2, ?_⟩
        rw [boundF_cons]
        exact ⟨hbc, boundF_nil s⟩
    · rw [if_neg hc] at h
      cases hF : attachF key child cs with
      | some cs' =>
        rw [hF] at h
        have ht' : t' = .node d cs' := (Option.some.inj h).symm
        subst ht'
        obtain ⟨hdata, hsort, hbound⟩ := attachF_props key child cs cs' hF
        refine ⟨rfl, ?_, ?_⟩
        · intro hs hsc hbd
          rw [sortedT_node] at hs ⊢
          rw [boundT_node] at hbd
          exact ⟨pairwise_of_map_data_eq cs cs' hdata hs.1,
            hsort hs.2 hsc hbd.2⟩
        · intro s hbs hbc
          rw [boundT_node] at hbs ⊢
          exact ⟨hbs.1, hbound s hbs.2 hbc⟩
      | none =>
        rw [hF] at h
        exact Option.noConfusion h

theorem attachF_props (key : Str) (child : Tree) :
    ∀ (ts ts' : List Tree), attachF key child ts = some ts' →
      ts'.map Tree.data = ts.map Tree.data ∧
      (sortedF ts → sortedT child → boundF child.data.path ts → sortedF ts') ∧
      (∀ s, boundF s ts → boundT s child → boundF s ts')
  | [], ts', h => by
    rw [attachF] at h
    exact Option.noConfusion h
  | t :: ts, ts', h => by
    rw [attachF] at h
    cases hT : attachT key child t with
    | some t' =>
      rw [hT] at h
      have hts' : ts' = t' :: ts := (Option.some.inj h).symm
      subst hts'
      obtain ⟨hdata, hsort, hbound⟩ := attachT_props key child t t' hT
      refine ⟨?_, ?_, ?_⟩
      · rw [List.map_cons, List.map_cons, hdata]
      · intro hs hsc hbd
        rw [sortedF_cons] at hs ⊢
        rw [boundF_cons] at hbd
        exact ⟨hsort hs.1 hsc hbd.1, hs.2⟩
      · intro s hbs hbc
        rw [boundF_cons] at hbs ⊢
        exact ⟨hbound s hbs.1 hbc, hbs.2⟩
    | none =>
      rw [hT] at h
      cases hF : attachF key child ts with
      | some ts'' =>
        rw [hF] at h
        have hts' : ts' = t :: ts'' := (Option.some.inj h).symm
        subst hts'
        obtain ⟨hdata, hsort, hbound⟩ := attachF_props key child ts ts'' hF
        refine ⟨?_, ?_, ?_⟩
        · rw [List.map_cons, List.map_cons, hdata]
        · intro hs hsc hbd
          rw [sortedF_cons] at hs ⊢
          rw [boundF_cons] at hbd
          exact ⟨hs.1, hsort hs.2 hsc hbd.2⟩
        · intro s hbs hbc
          rw [boundF_cons] at hbs ⊢
          exact ⟨hbs.1, hbound s hbs.2 hbc⟩
      | none =>
        rw [hF] at h
        exact Option.noConfusion h

end

theorem sortedT_leaf (d : NodeData) : sortedT (.node d []) := by
  rw [sortedT_node]
  exact ⟨List.Pairwise.nil, sortedF_nil⟩

theorem boundT_leaf (d : NodeData) (s : Str) (h : strLe d.path s = true) :
    boundT s (.node d []) := by
  rw [boundT_node]
  exact ⟨h, boundF_nil s⟩

theorem btStep_inv (cwd : List Str) (st : BTState) (e : Entry)
    (rem : List Entry) (hInv : BTInv st (e :: rem))
    (hle : ∀ e' ∈ rem, entryLe e e' = true) :
    BTInv (btStep cwd st e) rem := by
  obtain ⟨hsort, hpair, hbound⟩ := hInv
  have hbe : boundF (pathStr e.path) st.items :=
    hbound e (List.mem_cons_self _ _)
  have hbound' : ∀ e' ∈ rem, boundF (pathStr e'.path) st.items :=
    fun e' he' => hbound e' (List.mem_cons_of_mem _ he')
  unfold BTInv
  simp only [btStep]
  by_cases hrel : relSegs cwd e.path = []
  · rw [if_pos hrel]
    exact ⟨hsort, hpair, hbound'⟩
  · rw [if_neg hrel]
    cases hA : attachF (pathStr e.path.dropLast)
        (.node { path := pathStr e.path,
                 relativePath := pathStr (relSegs cwd e.path),
                 name := e.path.getLastD [], isDirectory := e.isDirectory,
                 depth := (relSegs cwd e.path).length - 1, selected := false,
                 expanded := false } []) st.items with
    | some items' =>
      obtain ⟨hdata, hsortA, hboundA⟩ := attachF_props _ _ st.items items' hA
      refine ⟨hsortA hsort (sortedT_leaf _) hbe, ?_, ?_⟩
      · exact pairwise_of_map_data_eq st.items items' hdata hpair
      · intro e' he'
        exact hboundA (pathStr e'.path) (hbound' e' he')
          (boundT_leaf _ _ (hle e' he'))
    | none =>
      cases hB : attachF (pathStr e.path.dropLast)
          (.node { path := pathStr e.path,
                   relativePath := pathStr (relSegs cwd e.path),
                   name := e.path.getLastD [], isDirectory := e.isDirectory,
                   depth := (relSegs cwd e.path).length - 1, selected := false,
                   expanded := false } []) st.orphans with
      | some orphans' =>
        exact ⟨hsort, hpair, hbound'⟩
      | none =>
        by_cases hd : (relSegs cwd e.path).length - 1 = 0
        · rw [if_pos hd]
          refine ⟨?_, ?_, ?_⟩
          · rw [sortedF_append]
            exact ⟨hsort, (sortedF_cons _ _).mpr ⟨sortedT_leaf _, sortedF_nil⟩⟩
          · rw [List.pairwise_append]
            refine ⟨hpair, List.pairwise_singleton _ _, ?_⟩
            intro a ha b hbm
            have hbi := List.mem_singleton.mp hbm
            subst hbi
            exact hbe a (mem_nodesF_of_mem st.items a ha)
          · intro e' he'
            rw [boundF_append]
            refine ⟨hbound' e' he', ?_⟩
            rw [boundF_cons]
            exact ⟨boundT_leaf _ _ (hle e' he'), boundF_nil _⟩
        · rw [if_neg hd]
          by_cases hdir : e.isDirectory = true
          · rw [if_pos hdir]
            exact ⟨hsort, hpair, hbound'⟩
          · rw [if_neg hdir]
            exact ⟨hsort, hpair, hbound'⟩

theorem foldl_btStep_inv (cwd : List Str) :
    ∀ (rem : List Entry) (st : BTState),
      rem.Pairwise (fun a b => entryLe a b = true) → BTInv st rem →
      BTInv (rem.foldl (btStep cwd) st) []
  | [], st, _, hInv => hInv
  | e :: rem, st, hp, hInv => by
    rw [List.foldl_cons]
    have hp' := List.pairwise_cons.mp hp
    exact foldl_btStep_inv cwd rem (btStep cwd st e) hp'.2
      (btStep_inv cwd st e rem hInv hp'.1)

/-- C3: in every tree the builder returns, the children of every
directory — and the returned root list itself — are ordered by
lexicographic comparison of their absolute paths: the collected entries
are sorted by absolute path before assembly and every insertion appends
at the end of its parent's (already smaller-pathed) children. -/
theorem buildTree_siblings_sorted (entries : List Entry) (cwd : List Str) :
    sortedF (buildTree entries cwd) ∧
    (buildTree entries cwd).Pairwise (fun a b => pathLe a b = true) := by
  unfold buildTree
  have hs : (entries.mergeSort entryLe).Pairwise (fun a b => entryLe a b = true) :=
    List.sorted_mergeSort entryLe_trans entryLe_total entries
  have h0 : BTInv ⟨[], []⟩ (entries.mergeSort entryLe) := by
    unfold BTInv
    exact ⟨sortedF_nil, List.Pairwise.nil, fun e he => boundF_nil _⟩
  have hfin := foldl_btStep_inv cwd (entries.mergeSort entryLe) ⟨[], []⟩ hs h0
  unfold BTInv at hfin
  exact ⟨hfin.1, hfin.2.1⟩

end Filecat
